import Mathlib

/-!
Verification of the hutil library (Go) against its specification.

The Go sources are shallowly embedded: pure functions become Lean functions,
pointer mutation becomes explicit state passing, Go `error` values become
`Option E`, and Go `panic` becomes an explicit outcome constructor.
Strings are modelled as lists of characters; this is faithful because every
byte the algorithms branch on (`/` and `.`) is ASCII and cannot occur inside
a multi-byte UTF-8 sequence, so byte indices of those bytes coincide with
character indices.
-/

namespace Hutil

/-! ## Embedding of Go `path.Clean` (standard library package `path`)

`ShiftPath` in the repository calls `path.Clean("/" + p)`.  The lazybuf
output buffer is represented in reverse order (`rev`): appending a byte is
consing, and decrementing the write index `out.w` is dropping from the
front.  `dotdot` is the index below which `..` may not backtrack.
The main loop is given explicit fuel (one unit per loop iteration); every
iteration consumes at least one input byte, so fuel equal to the input
length makes the embedding exact. -/

/-- The backtracking step of `path.Clean` for a `..` element:
`out.w--; for out.w > dotdot && out.index(out.w) != '/' { out.w-- }`.
`rev` is the output buffer reversed; dropping from the front of `rev`
is decrementing `out.w`. -/
def backtrack (dotdot : Nat) : List Char → List Char
  | [] => []
  | c :: rest =>
    if dotdot < rest.length ∧ c ≠ '/' then backtrack dotdot rest else rest

/-- The main loop of Go `path.Clean`, reading the remaining input and
maintaining the reversed output buffer `rev` and the `dotdot` barrier. -/
def cleanLoop (rooted : Bool) : Nat → List Char → List Char → Nat → List Char
  | 0, _, rev, _ => rev
  | _ + 1, [], rev, _ => rev
  | fuel + 1, c :: rest, rev, dotdot =>
    if c = '/' then
      -- empty path element
      cleanLoop rooted fuel rest rev dotdot
    else if c = '.' ∧ (rest = [] ∨ rest.head? = some '/') then
      -- . element
      cleanLoop rooted fuel rest rev dotdot
    else if c = '.' ∧ rest.head? = some '.' ∧
        (rest.tail = [] ∨ rest.tail.head? = some '/') then
      -- .. element: remove to last /
      if dotdot < rev.length then
        cleanLoop rooted fuel rest.tail (backtrack dotdot rev) dotdot
      else if rooted = false then
        -- cannot backtrack, but not rooted, so append .. element
        let rev1 := if 0 < rev.length then '.' :: '.' :: '/' :: rev else '.' :: '.' :: rev
        cleanLoop rooted fuel rest.tail rev1 rev1.length
      else
        cleanLoop rooted fuel rest.tail rev dotdot
    else
      -- real path element: add slash if needed, then copy the element
      let rev1 :=
        if (rooted = true ∧ rev.length ≠ 1) ∨ (rooted = false ∧ rev.length ≠ 0)
        then '/' :: rev else rev
      let seg := c :: rest.takeWhile (fun x => x ≠ '/')
      cleanLoop rooted fuel (rest.dropWhile (fun x => x ≠ '/')) (seg.reverse ++ rev1) dotdot

/-- The closing step of Go `path.Clean`:
`if out.w == 0 { return "." }; return out.string()`. -/
def cleanOut (out : List Char) : List Char :=
  if out = [] then ['.'] else out.reverse

/-- Go `path.Clean`, on characters.  When the path is rooted the initial
slash is placed in the buffer and reading starts after it (`r, dotdot = 1, 1`
in the source). -/
def clean (p : List Char) : List Char :=
  if p = [] then ['.']
  else if p.head? = some '/' then
    cleanOut (cleanLoop true p.tail.length p.tail ['/'] 1)
  else
    cleanOut (cleanLoop false p.length p [] 0)

/-- Go `strings.Index(s, c)` for a single character needle: the index of the
first occurrence, or -1 if absent. -/
def stringsIndex (s : List Char) (c : Char) : Int :=
  if s.contains c then ((s.takeWhile (fun x => x ≠ c)).length : Int) else -1

/-- The splitting step of `ShiftPath` applied to the cleaned path:
`pos := strings.Index(p[1:], "/"); if pos == -1 { return p[1:], "/" };
p = p[1:]; return p[:pos], p[pos:]`. -/
def shiftSplit (p1 : List Char) : String × String :=
  if stringsIndex (p1.drop 1) '/' = -1 then
    (String.mk (p1.drop 1), "/")
  else
    (String.mk ((p1.drop 1).take (stringsIndex (p1.drop 1) '/').toNat),
     String.mk ((p1.drop 1).drop (stringsIndex (p1.drop 1) '/').toNat))

/-- Embedding of `ShiftPath` (hutil): `p = path.Clean("/" + p)` followed by
the split at the first slash of `p[1:]`. -/
def ShiftPath (p : String) : String × String :=
  shiftSplit (clean ('/' :: p.toList))

/-! ### Invariants of the cleaned path

The output buffer (reversed in `rev`) of a rooted `path.Clean` run always
starts with `/` (bottom of `rev`), never contains two adjacent slashes, and
ends with `/` only when it is exactly `/`. -/

/-- No two adjacent slashes occur in the list. -/
def noAdjSlash : List Char → Bool
  | [] => true
  | [_] => true
  | a :: b :: rest => if a = '/' ∧ b = '/' then false else noAdjSlash (b :: rest)

theorem noAdjSlash_tail {a : Char} {l : List Char}
    (h : noAdjSlash (a :: l) = true) : noAdjSlash l = true := by
  cases l with
  | nil => rfl
  | cons b rest =>
    unfold noAdjSlash at h
    split at h
    · exact absurd h (by simp)
    · exact h

theorem noAdjSlash_of_no_slash {l : List Char} (h : ∀ x ∈ l, x ≠ '/') :
    noAdjSlash l = true := by
  induction l with
  | nil => rfl
  | cons a rest ih =>
    cases rest with
    | nil => rfl
    | cons b r2 =>
      unfold noAdjSlash
      have ha : a ≠ '/' := h a (by simp)
      rw [if_neg (by exact fun hc => ha hc.1)]
      exact ih (fun x hx => h x (by simp [hx]))

theorem noAdjSlash_cons {a : Char} {l : List Char}
    (hl : noAdjSlash l = true) (hj : ¬(a = '/' ∧ l.head? = some '/')) :
    noAdjSlash (a :: l) = true := by
  cases l with
  | nil => rfl
  | cons b rest =>
    unfold noAdjSlash
    rw [if_neg (by simpa using hj)]
    exact hl

theorem noAdjSlash_append {xs ys : List Char}
    (hx : noAdjSlash xs = true) (hy : noAdjSlash ys = true)
    (hj : ¬(xs.getLast? = some '/' ∧ ys.head? = some '/')) :
    noAdjSlash (xs ++ ys) = true := by
  induction xs with
  | nil => simpa using hy
  | cons a rest ih =>
    cases rest with
    | nil =>
      simp only [List.cons_append, List.nil_append]
      exact noAdjSlash_cons hy (by simpa using hj)
    | cons b r2 =>
      have hrest : noAdjSlash ((b :: r2) ++ ys) = true := by
        refine ih (noAdjSlash_tail hx) ?_
        simpa [List.getLast?] using hj
      refine noAdjSlash_cons hrest ?_
      rintro ⟨ha, hh⟩
      simp only [List.cons_append, List.head?] at hh
      unfold noAdjSlash at hx
      rw [if_pos ⟨ha, by injection hh⟩] at hx
      exact absurd hx (by simp)

/-- `backtrack` only drops elements from the front of the reversed buffer. -/
theorem backtrack_suffix (d : Nat) (rev : List Char) :
    (backtrack d rev).IsSuffix rev := by
  induction rev with
  | nil => simp [backtrack]
  | cons c rest ih =>
    unfold backtrack
    split
    · exact ih.trans (List.suffix_cons c rest)
    · exact List.suffix_cons c rest

/-- `backtrack` never drops below the `dotdot` barrier. -/
theorem backtrack_length {d : Nat} {rev : List Char} (h : d < rev.length) :
    d ≤ (backtrack d rev).length := by
  induction rev with
  | nil => simp at h
  | cons c rest ih =>
    unfold backtrack
    by_cases hcond : d < rest.length ∧ c ≠ '/'
    · rw [if_pos hcond]
      exact ih hcond.1
    · rw [if_neg hcond]
      have hlen : d < rest.length + 1 := by simpa using h
      omega

theorem suffix_getLast? {l₁ l₂ : List Char} (h : l₁.IsSuffix l₂) (hne : l₁ ≠ []) :
    l₁.getLast? = l₂.getLast? := by
  obtain ⟨t, rfl⟩ := h
  exact (List.getLast?_append_of_ne_nil t hne).symm

theorem suffix_noAdjSlash {l₁ l₂ : List Char} (h : l₁.IsSuffix l₂)
    (hl : noAdjSlash l₂ = true) : noAdjSlash l₁ = true := by
  obtain ⟨t, rfl⟩ := h
  induction t with
  | nil => simpa using hl
  | cons a rest ih => exact ih (noAdjSlash_tail hl)

/-- Invariant of the reversed output buffer during a rooted clean:
nonempty, bottom character is `/` (the output starts with `/`), the top
character is `/` only when the buffer is exactly `/` (no trailing slash),
and no two adjacent slashes. -/
def GoodRev (rev : List Char) : Prop :=
  rev ≠ [] ∧ rev.getLast? = some '/' ∧
    (rev.head? = some '/' → rev = ['/']) ∧ noAdjSlash rev = true

theorem getLast?_cons_of_ne_nil {a : Char} {l : List Char} (h : l ≠ []) :
    (a :: l).getLast? = l.getLast? := by
  cases l with
  | nil => exact absurd rfl h
  | cons b r => exact List.getLast?_cons_cons

theorem backtrack_head (rev : List Char) (hadj : noAdjSlash rev = true)
    (hlast : rev.getLast? = some '/') (hlen : 1 < rev.length) :
    backtrack 1 rev = ['/'] ∨ (backtrack 1 rev).head? ≠ some '/' := by
  induction rev with
  | nil => simp at hlen
  | cons c rest ih =>
    have hrest_ne : rest ≠ [] := by
      intro hr
      rw [hr] at hlen
      simp at hlen
    unfold backtrack
    by_cases hcond : 1 < rest.length ∧ c ≠ '/'
    · rw [if_pos hcond]
      exact ih (noAdjSlash_tail hadj)
        ((getLast?_cons_of_ne_nil hrest_ne).symm.trans hlast) hcond.1
    · rw [if_neg hcond]
      by_cases hl1 : 1 < rest.length
      · -- stopped because c = '/'; no adjacent slash forbids rest starting with '/'
        have hc : c = '/' := by
          by_contra hc
          exact hcond ⟨hl1, hc⟩
        right
        cases rest with
        | nil => exact absurd rfl hrest_ne
        | cons b r2 =>
          intro hh
          have hb : b = '/' := by
            rw [List.head?_cons] at hh
            injection hh
          unfold noAdjSlash at hadj
          rw [if_pos ⟨hc, hb⟩] at hadj
          exact Bool.noConfusion hadj
      · -- stopped at the barrier: the remaining single character is the root slash
        left
        have : rest.length = 1 := by
          have h1 : 1 ≤ rest.length := Nat.one_le_iff_ne_zero.mpr
            (fun h0 => hrest_ne (List.length_eq_zero.mp h0))
          omega
        obtain ⟨x, hx⟩ := List.length_eq_one.mp this
        subst hx
        have : some x = some '/' := by
          rw [getLast?_cons_of_ne_nil (by simp)] at hlast
          simpa using hlast
        simpa using this

theorem goodRev_backtrack {rev : List Char} (hg : GoodRev rev) (hlen : 1 < rev.length) :
    GoodRev (backtrack 1 rev) := by
  obtain ⟨hne, hlast, hhead, hadj⟩ := hg
  have hbne : backtrack 1 rev ≠ [] := by
    have := backtrack_length hlen
    intro h0
    rw [h0] at this
    simp at this
  refine ⟨hbne, ?_, ?_, suffix_noAdjSlash (backtrack_suffix 1 rev) hadj⟩
  · exact (suffix_getLast? (backtrack_suffix 1 rev) hbne).trans hlast
  · rcases backtrack_head rev hadj hlast hlen with h | h
    · intro _
      exact h
    · intro hh
      exact absurd hh h

theorem head?_append_of_ne_nil {l₁ l₂ : List Char} (h : l₁ ≠ []) :
    (l₁ ++ l₂).head? = l₁.head? := by
  cases l₁ with
  | nil => exact absurd rfl h
  | cons a t => rfl

/-- Appending a nonempty slash-free segment (with separator when required)
preserves the buffer invariant. -/
theorem goodRev_push {rev seg : List Char} (hg : GoodRev rev) (hne : seg ≠ [])
    (hns : ∀ x ∈ seg, x ≠ '/') (rev1 : List Char)
    (hrev1 : rev1 = if rev.length ≠ 1 then '/' :: rev else rev) :
    GoodRev (seg.reverse ++ rev1) := by
  obtain ⟨hrne, hlast, hhead, hadj⟩ := hg
  have hrev1_ne : rev1 ≠ [] := by
    rw [hrev1]
    split
    · simp
    · exact hrne
  have hsegrev_ne : seg.reverse ≠ [] := by simpa using hne
  have hlast1 : rev1.getLast? = some '/' := by
    rw [hrev1]
    split
    · rw [getLast?_cons_of_ne_nil hrne]
      exact hlast
    · exact hlast
  have hhead_seg : ∀ y, seg.reverse.head? = some y → y ≠ '/' := by
    intro y hy
    rw [List.head?_reverse] at hy
    obtain ⟨_, hxy⟩ := List.mem_getLast?_eq_getLast (by simpa using hy)
    rw [hxy]
    exact hns _ (List.getLast_mem _)
  have hadj1 : noAdjSlash rev1 = true := by
    rw [hrev1]
    by_cases hn1 : rev.length ≠ 1
    · rw [if_pos hn1]
      refine noAdjSlash_cons hadj ?_
      rintro ⟨_, hh⟩
      exact hn1 (by rw [hhead hh]; rfl)
    · rw [if_neg hn1]
      exact hadj
  refine ⟨by simp [hsegrev_ne], ?_, ?_, ?_⟩
  · rw [List.getLast?_append_of_ne_nil _ hrev1_ne]
    exact hlast1
  · intro hh
    rw [head?_append_of_ne_nil hsegrev_ne] at hh
    exact absurd rfl (hhead_seg _ hh)
  · refine noAdjSlash_append ?_ hadj1 ?_
    · refine noAdjSlash_of_no_slash ?_
      intro x hx
      exact hns x (by simpa using hx)
    · rintro ⟨hg1, _⟩
      rw [List.getLast?_reverse] at hg1
      cases seg with
      | nil => exact hne rfl
      | cons c0 s0 =>
        have : c0 = '/' := by
          rw [List.head?_cons] at hg1
          injection hg1
        exact hns c0 (by simp) this

/-- The buffer invariant is preserved by every iteration of a rooted clean. -/
theorem cleanLoop_goodRev :
    ∀ (fuel : Nat) (input rev : List Char), GoodRev rev →
      GoodRev (cleanLoop true fuel input rev 1) := by
  intro fuel
  induction fuel with
  | zero =>
    intro input rev hg
    simpa [cleanLoop] using hg
  | succ n ih =>
    intro input rev hg
    cases input with
    | nil => simpa [cleanLoop] using hg
    | cons c rest =>
      unfold cleanLoop
      by_cases h1 : c = '/'
      · rw [if_pos h1]
        exact ih _ _ hg
      · rw [if_neg h1]
        by_cases h2 : c = '.' ∧ (rest = [] ∨ rest.head? = some '/')
        · rw [if_pos h2]
          exact ih _ _ hg
        · rw [if_neg h2]
          by_cases h3 : c = '.' ∧ rest.head? = some '.' ∧
              (rest.tail = [] ∨ rest.tail.head? = some '/')
          · rw [if_pos h3]
            by_cases h4 : 1 < rev.length
            · rw [if_pos h4]
              exact ih _ _ (goodRev_backtrack hg h4)
            · rw [if_neg h4, if_neg (by simp : ¬(true = false))]
              exact ih _ _ hg
          · rw [if_neg h3]
            refine ih _ _ (goodRev_push hg (by simp) ?_ _ ?_)
            · intro x hx
              rcases List.mem_cons.mp hx with h | h
              · exact h ▸ h1
              · have hw := List.mem_takeWhile_imp h
                simpa using hw
            · by_cases hn1 : rev.length ≠ 1
              · rw [if_pos hn1, if_pos (Or.inl ⟨rfl, hn1⟩)]
              · rw [if_neg hn1, if_neg]
                rintro (⟨_, hc⟩ | ⟨hc, _⟩)
                · exact hn1 hc
                · exact Bool.noConfusion hc

/-- A rooted clean starts with a slash and has no trailing slash
unless it is exactly the root path. -/
theorem clean_rooted_spec (l : List Char) :
    clean ('/' :: l) ≠ [] ∧ (clean ('/' :: l)).head? = some '/' ∧
      (clean ('/' :: l) = ['/'] ∨ (clean ('/' :: l)).getLast? ≠ some '/') := by
  have hg : GoodRev (cleanLoop true l.length l ['/'] 1) :=
    cleanLoop_goodRev _ _ _ ⟨by simp, rfl, fun _ => rfl, rfl⟩
  obtain ⟨hne, hlast, hhead, _⟩ := hg
  have hres : clean ('/' :: l) = (cleanLoop true l.length l ['/'] 1).reverse := by
    unfold clean
    rw [if_neg (by simp : ¬('/' :: l = [])),
      if_pos (by simp : ('/' :: l).head? = some '/')]
    simp only [List.tail_cons]
    unfold cleanOut
    rw [if_neg hne]
  refine ⟨by rw [hres]; simpa using hne, ?_, ?_⟩
  · rw [hres, List.head?_reverse]
    exact hlast
  · by_cases hh : (cleanLoop true l.length l ['/'] 1).head? = some '/'
    · left
      rw [hres, hhead hh]
      rfl
    · right
      rw [hres, List.getLast?_reverse]
      exact hh

theorem take_takeWhile_length (p : Char → Bool) (l : List Char) :
    l.take (l.takeWhile p).length = l.takeWhile p := by
  induction l with
  | nil => rfl
  | cons a rest ih =>
    by_cases hp : p a
    · rw [List.takeWhile_cons_of_pos hp]
      simpa using ih
    · rw [List.takeWhile_cons_of_neg hp]
      rfl

theorem drop_takeWhile_length (p : Char → Bool) (l : List Char) :
    l.drop (l.takeWhile p).length = l.dropWhile p := by
  induction l with
  | nil => rfl
  | cons a rest ih =>
    by_cases hp : p a
    · rw [List.takeWhile_cons_of_pos hp, List.dropWhile_cons_of_pos hp]
      simpa using ih
    · rw [List.takeWhile_cons_of_neg hp, List.dropWhile_cons_of_neg hp]
      rfl

theorem dropWhile_ne_head {l : List Char} {c : Char} (h : c ∈ l) :
    (l.dropWhile (fun x => decide (x ≠ c))).head? = some c := by
  induction l with
  | nil => simp at h
  | cons a rest ih =>
    by_cases hac : a = c
    · subst hac
      rw [List.dropWhile_cons_of_neg (by simp)]
      rfl
    · rw [List.dropWhile_cons_of_pos (by simpa using hac)]
      exact ih (by rcases List.mem_cons.mp h with h | h
                   · exact absurd h.symm hac
                   · exact h)

/-- C4: for every input string `p`, `ShiftPath p` returns a head containing
no slash and a tail that starts with a slash and is either exactly the root
path or has no trailing slash; moreover `ShiftPath "/copy" = ("copy", "/")`,
`ShiftPath "/" = ("", "/")`, `ShiftPath "/api/v1/hello" = ("api",
"/v1/hello")` and `ShiftPath "." = ("", "/")`. -/
theorem shiftPath_C4 (p : String) :
    (ShiftPath p).1.toList.contains '/' = false ∧
    (ShiftPath p).2.toList.head? = some '/' ∧
    ((ShiftPath p).2 = "/" ∨ (ShiftPath p).2.toList.getLast? ≠ some '/') ∧
    ShiftPath "/copy" = ("copy", "/") ∧
    ShiftPath "/" = ("", "/") ∧
    ShiftPath "/api/v1/hello" = ("api", "/v1/hello") ∧
    ShiftPath "." = ("", "/") := by
  obtain ⟨hne, hhd, hdisj⟩ := clean_rooted_spec p.toList
  have hsp : ShiftPath p = shiftSplit (clean ('/' :: p.toList)) := rfl
  by_cases hc : ((clean ('/' :: p.toList)).drop 1).contains '/' = true
  · -- a slash occurs in the tail of the cleaned path
    set q := (clean ('/' :: p.toList)).drop 1 with hq
    have hmem : '/' ∈ q := List.elem_iff.mp hc
    have hidx : stringsIndex q '/' =
        ((q.takeWhile (fun x => decide (x ≠ '/'))).length : Int) := by
      unfold stringsIndex
      rw [if_pos hc]
    have hsplit : ShiftPath p =
        (String.mk (q.take (q.takeWhile (fun x => decide (x ≠ '/'))).length),
         String.mk (q.drop (q.takeWhile (fun x => decide (x ≠ '/'))).length)) := by
      rw [hsp]
      unfold shiftSplit
      rw [← hq, hidx, if_neg (by omega : ¬((((q.takeWhile
        (fun x => decide (x ≠ '/'))).length : Nat) : Int) = -1))]
      simp
    have htake := take_takeWhile_length (fun x => decide (x ≠ '/')) q
    have hdrop := drop_takeWhile_length (fun x => decide (x ≠ '/')) q
    have hdw_head := dropWhile_ne_head hmem
    have hdw_ne : q.dropWhile (fun x => decide (x ≠ '/')) ≠ [] := by
      intro h0
      rw [h0] at hdw_head
      exact Option.noConfusion hdw_head
    refine ⟨?_, ?_, ?_, by decide, by decide, by decide, by decide⟩
    · rw [hsplit]
      show (q.take (q.takeWhile (fun x => decide (x ≠ '/'))).length).contains '/' = false
      rw [htake]
      rw [Bool.eq_false_iff]
      intro habs
      have := List.mem_takeWhile_imp (List.elem_iff.mp habs)
      simp at this
    · rw [hsplit]
      show (q.drop (q.takeWhile (fun x => decide (x ≠ '/'))).length).head? = some '/'
      rw [hdrop]
      exact hdw_head
    · right
      rw [hsplit]
      show (q.drop (q.takeWhile (fun x => decide (x ≠ '/'))).length).getLast? ≠ some '/'
      rw [hdrop]
      have hql : q.getLast? = (q.dropWhile (fun x => decide (x ≠ '/'))).getLast? := by
        conv_lhs => rw [← List.takeWhile_append_dropWhile (fun x => decide (x ≠ '/')) q]
        exact List.getLast?_append_of_ne_nil _ hdw_ne
      have hq_ne : q ≠ [] := by
        intro h0
        rw [h0] at hmem
        simp at hmem
      have hp1 : (clean ('/' :: p.toList)).getLast? = q.getLast? := by
        cases hcl : clean ('/' :: p.toList) with
        | nil => exact absurd hcl hne
        | cons a t =>
          have hqt : q = t := by rw [hq, hcl, List.drop_one, List.tail_cons]
          rw [hqt, getLast?_cons_of_ne_nil (hqt ▸ hq_ne)]
      have hnr : clean ('/' :: p.toList) ≠ ['/'] := by
        intro h0
        rw [hq, h0] at hq_ne
        simp at hq_ne
      rcases hdisj with h | h
      · exact absurd h hnr
      · rw [← hql, ← hp1]
        exact h
  · -- no slash in the tail: the tail returned is exactly "/"
    have hsplit : ShiftPath p =
        (String.mk ((clean ('/' :: p.toList)).drop 1), "/") := by
      rw [hsp]
      unfold shiftSplit
      unfold stringsIndex
      rw [if_neg hc, if_pos rfl]
    refine ⟨?_, ?_, ?_, by decide, by decide, by decide, by decide⟩
    · rw [hsplit]
      show ((clean ('/' :: p.toList)).drop 1).contains '/' = false
      exact Bool.not_eq_true _ ▸ (Bool.eq_false_iff.mpr (fun h => hc h))
    · rw [hsplit]
      rfl
    · left
      rw [hsplit]

/-! ## Router (router.go)

`Handler[C].Handle(ctx context.Context, handlerCtx C, w http.ResponseWriter,
req *http.Request) error` is embedded as a function threading the response
writer as state (Go mutates it through an interface value) and returning the
Go error as an `Option`. -/

/-- The `Handler[C]` capability. -/
def Hdl (Ctx C W Req E : Type) : Type := Ctx → C → W → Req → W × Option E

/-- `Router[C]`: a stack of handlers (this pure-list view is the contents of
the Go slice; the aliasing behavior of the slice itself is modelled
separately below for `Diverge`). -/
structure Router (Ctx C W Req E : Type) where
  handlers : List (Hdl Ctx C W Req E)

/-- The body of the closure returned by `Router.Handler`: call every handler
sequentially; if a handler returns an error, return it and call no further
handler; otherwise call `finalHandler`. -/
def routerRun {Ctx C W Req E : Type} :
    List (Hdl Ctx C W Req E) → Hdl Ctx C W Req E → Ctx → C → W → Req → W × Option E
  | [], finalHandler, ctx, hctx, w, req => finalHandler ctx hctx w req
  | h :: rest, finalHandler, ctx, hctx, w, req =>
    match h ctx hctx w req with
    | (w1, some e) => (w1, some e)
    | (w1, none) => routerRun rest finalHandler ctx hctx w1 req

/-- `Router.Handler`. -/
def Router.Handler {Ctx C W Req E : Type} (s : Router Ctx C W Req E)
    (finalHandler : Hdl Ctx C W Req E) : Hdl Ctx C W Req E :=
  routerRun s.handlers finalHandler

/-- `Router.HandlerFunc`: identical loop, the final handler passed as a
plain function. -/
def Router.HandlerFunc {Ctx C W Req E : Type} (s : Router Ctx C W Req E)
    (fn : Ctx → C → W → Req → W × Option E) : Hdl Ctx C W Req E :=
  routerRun s.handlers fn

/-- Specification-side helper: the final writer state after running a list
of handlers when all of them return nil. -/
def runOkAll {Ctx C W Req E : Type} :
    List (Hdl Ctx C W Req E) → Ctx → C → W → Req → Option W
  | [], _, _, w, _ => some w
  | h :: rest, ctx, hctx, w, req =>
    match h ctx hctx w req with
    | (_, some _) => none
    | (w1, none) => runOkAll rest ctx hctx w1 req

theorem routerRun_append_ok {Ctx C W Req E : Type}
    (pre : List (Hdl Ctx C W Req E)) (hs : List (Hdl Ctx C W Req E))
    (finalHandler : Hdl Ctx C W Req E) (ctx : Ctx) (c : C) (w w1 : W) (req : Req)
    (hok : runOkAll pre ctx c w req = some w1) :
    routerRun (pre ++ hs) finalHandler ctx c w req =
      routerRun hs finalHandler ctx c w1 req := by
  induction pre generalizing w with
  | nil =>
    simp only [runOkAll, Option.some.injEq] at hok
    rw [hok]
    rfl
  | cons h rest ih =>
    simp only [runOkAll] at hok
    simp only [List.cons_append, routerRun]
    rcases hres : h ctx c w req with ⟨w2, err⟩
    rw [hres] at hok
    cases err with
    | some e => exact absurd hok (by simp)
    | none => exact ih w2 hok

/-- C2: the composed handler runs the registered handlers in registration
order; the first non-nil error is returned as-is and neither the remaining
registered handlers nor the terminal handler run (the result does not depend
on them); if all registered handlers return nil the terminal handler runs on
the accumulated state and its result is returned.  `HandlerFunc` behaves
exactly like `Handler`. -/
theorem router_C2 (Ctx C W Req E : Type) :
    (∀ (pre post : List (Hdl Ctx C W Req E)) (h finalHandler : Hdl Ctx C W Req E)
        (ctx : Ctx) (c : C) (w w1 w2 : W) (req : Req) (e : E),
      runOkAll pre ctx c w req = some w1 →
      h ctx c w1 req = (w2, some e) →
      (Router.mk (pre ++ h :: post)).Handler finalHandler ctx c w req = (w2, some e)) ∧
    (∀ (hs : List (Hdl Ctx C W Req E)) (finalHandler : Hdl Ctx C W Req E)
        (ctx : Ctx) (c : C) (w w1 : W) (req : Req),
      runOkAll hs ctx c w req = some w1 →
      (Router.mk hs).Handler finalHandler ctx c w req = finalHandler ctx c w1 req) ∧
    (∀ (s : Router Ctx C W Req E) (fn : Ctx → C → W → Req → W × Option E),
      s.HandlerFunc fn = s.Handler fn) := by
  refine ⟨?_, ?_, fun s fn => rfl⟩
  · intro pre post h finalHandler ctx c w w1 w2 req e hok herr
    show routerRun (pre ++ h :: post) finalHandler ctx c w req = (w2, some e)
    rw [routerRun_append_ok pre (h :: post) finalHandler ctx c w w1 req hok]
    simp only [routerRun, herr]
  · intro hs finalHandler ctx c w w1 req hok
    show routerRun hs finalHandler ctx c w req = finalHandler ctx c w1 req
    induction hs generalizing w with
    | nil =>
      simp only [runOkAll, Option.some.injEq] at hok
      rw [hok]
      rfl
    | cons h rest ih =>
      simp only [runOkAll] at hok
      simp only [routerRun]
      rcases hres : h ctx c w req with ⟨w2, err⟩
      rw [hres] at hok
      cases err with
      | some e => exact absurd hok (by simp)
      | none => exact ih w2 hok

/-- A handler that records its label and succeeds. -/
def tagHdl (i : Nat) : Hdl Unit Unit (List Nat) Unit Nat :=
  fun _ _ w _ => (w ++ [i], none)

/-- A handler that records its label and fails with error `e`. -/
def errHdl (i e : Nat) : Hdl Unit Unit (List Nat) Unit Nat :=
  fun _ _ w _ => (w ++ [i], some e)

/-- Witness for C2: with stack `[1, 2(error 7), 3]`, the recorded side
effects are exactly `[1, 2]` and the returned error is 7; with stack
`[1, 2]` all-nil, the terminal handler 0 runs last. -/
theorem router_C2_witness :
    (Router.mk ([tagHdl 1] ++ errHdl 2 7 :: [tagHdl 3])).Handler (tagHdl 0)
        () () [] () = ([1, 2], some 7) ∧
    (Router.mk [tagHdl 1, tagHdl 2]).Handler (tagHdl 0) () () [] () =
        ([1, 2, 0], none) := by
  constructor
  · exact (router_C2 Unit Unit (List Nat) Unit Nat).1 [tagHdl 1] [tagHdl 3]
      (errHdl 2 7) (tagHdl 0) () () [] [1] [1, 2] () 7 rfl rfl
  · exact ((router_C2 Unit Unit (List Nat) Unit Nat).2.1 [tagHdl 1, tagHdl 2]
      (tagHdl 0) () () [] [1, 2] () rfl).trans rfl

/-! ## MiddlewareStack (middleware.go) and Chain (chain.go) -/

/-- `http.Handler` as a state transformer on an abstract response state. -/
def HttpHandler (Req S : Type) : Type := Req → S → S

/-- `Middleware`: wraps a next handler. -/
def Middleware (Req S : Type) : Type := HttpHandler Req S → HttpHandler Req S

/-- `MiddlewareStack`: a list of middlewares, first registered first. -/
def MiddlewareStack (Req S : Type) : Type := List (Middleware Req S)

/-- `MiddlewareStack.Handler`: the Go loop wraps `h` with `s[i]` for `i`
from `len(s)-1` down to `0`, producing `s[0] (s[1] (... s[len-1] h))`;
this recursion computes the same composition. -/
def MiddlewareStack.Handler {Req S : Type} :
    MiddlewareStack Req S → HttpHandler Req S → HttpHandler Req S
  | [], h => h
  | m :: rest, h => m (MiddlewareStack.Handler rest h)

/-- `Chain` (chain.go): same representation. -/
def Chain (Req S : Type) : Type := List (HttpHandler Req S → HttpHandler Req S)

/-- `Chain.Handler`: identical downward wrapping loop. -/
def Chain.Handler {Req S : Type} :
    Chain Req S → HttpHandler Req S → HttpHandler Req S
  | [], h => h
  | m :: rest, h => m (Chain.Handler rest h)

/-- A middleware that records its label before invoking its next handler. -/
def tagMw (i : Nat) : Middleware Unit (List Nat) :=
  fun next => fun r s => next r (s ++ [i])

/-- A terminal handler that records its label. -/
def tagFinal (t : Nat) : HttpHandler Unit (List Nat) :=
  fun _ s => s ++ [t]

/-- C7: the first registered middleware is the outermost wrapper; when every
middleware invokes its next handler, side effects happen in registration
order followed by the terminal handler; `Chain.Handler` composes the same
way. -/
theorem middleware_C7 (Req S : Type) :
    (∀ (m : Middleware Req S) (rest : MiddlewareStack Req S) (h : HttpHandler Req S),
      MiddlewareStack.Handler (m :: rest) h = m (MiddlewareStack.Handler rest h)) ∧
    (∀ (names : List Nat) (t : Nat) (s0 : List Nat),
      MiddlewareStack.Handler (names.map tagMw) (tagFinal t) () s0 =
        s0 ++ names ++ [t]) ∧
    (∀ (c : Chain Req S) (h : HttpHandler Req S),
      Chain.Handler c h = MiddlewareStack.Handler c h) := by
  refine ⟨fun m rest h => rfl, ?_, ?_⟩
  · intro names t s0
    induction names generalizing s0 with
    | nil => simp [MiddlewareStack.Handler, tagFinal]
    | cons n rest ih =>
      show tagMw n (MiddlewareStack.Handler (rest.map tagMw) (tagFinal t)) () s0 =
        s0 ++ (n :: rest) ++ [t]
      show MiddlewareStack.Handler (rest.map tagMw) (tagFinal t) () (s0 ++ [n]) =
        s0 ++ (n :: rest) ++ [t]
      rw [ih (s0 ++ [n])]
      simp
  · intro c h
    induction c with
    | nil => rfl
    | cons m rest ih =>
      show m (Chain.Handler rest h) = m (MiddlewareStack.Handler rest h)
      rw [ih]

/-! ## Go slice semantics for `Router.Add` / `Router.Diverge` (router.go)

`Diverge` is interesting only because of Go slice aliasing: it takes an
eager copy (`make` + `copy`) of the backing array, so later appends to
either router cannot write into the other's backing array.  To verify this
the Go slice is modelled explicitly: a store of fixed-capacity backing
arrays (cells beyond the initialized prefix are `none`), and a slice value
is an array id plus a length. -/

/-- A Go slice header: backing array id and length (capacity is the length
of the backing array in the store). -/
structure GoSlice where
  aid : Nat
  len : Nat

/-- The heap of backing arrays. -/
structure Store (α : Type) where
  arrays : List (List (Option α))

/-- The backing array of a slice. -/
def readArr {α : Type} (st : Store α) (i : Nat) : List (Option α) :=
  st.arrays.getD i []

/-- The elements visible through a slice: the first `len` cells. -/
def view {α : Type} (st : Store α) (sl : GoSlice) : List (Option α) :=
  (readArr st sl.aid).take sl.len

/-- Go `append(s, x)`: write in place when capacity remains, otherwise
allocate a fresh backing array (capacity grows by doubling; the exact growth
policy does not affect which cells are visible) and copy the visible
elements. -/
def sliceAppend {α : Type} (st : Store α) (sl : GoSlice) (x : α) :
    Store α × GoSlice :=
  if sl.len < (readArr st sl.aid).length then
    (⟨st.arrays.set sl.aid ((readArr st sl.aid).set sl.len (some x))⟩,
     ⟨sl.aid, sl.len + 1⟩)
  else
    (⟨st.arrays ++ [view st sl ++ some x ::
        List.replicate (max 1 (2 * (readArr st sl.aid).length) - sl.len - 1) none]⟩,
     ⟨st.arrays.length, sl.len + 1⟩)

/-- `make([]Handler[C], len(s.handlers))` followed by `copy`: a fresh
backing array of capacity exactly `len` holding the visible elements. -/
def sliceCopyExact {α : Type} (st : Store α) (sl : GoSlice) :
    Store α × GoSlice :=
  (⟨st.arrays ++ [view st sl]⟩, ⟨st.arrays.length, sl.len⟩)

/-- The Go `Router` value: its `handlers` slice header. -/
structure GoRouter where
  handlers : GoSlice

/-- `Router.Add`: `s.handlers = append(s.handlers, handler)`. -/
def routerAdd {α : Type} (st : Store α) (r : GoRouter) (h : α) :
    Store α × GoRouter :=
  let p := sliceAppend st r.handlers h
  (p.1, ⟨p.2⟩)

/-- `Router.Diverge`: `tmp := make([]Handler[C], len(s.handlers));
copy(tmp, s.handlers); return &Router{handlers: tmp}`. -/
def routerDiverge {α : Type} (st : Store α) (r : GoRouter) :
    Store α × GoRouter :=
  let p := sliceCopyExact st r.handlers
  (p.1, ⟨p.2⟩)

/-- A sequence of `Add` calls. -/
def addAll {α : Type} : Store α → GoRouter → List α → Store α × GoRouter
  | st, r, [] => (st, r)
  | st, r, h :: rest =>
    let p := routerAdd st r h
    addAll p.1 p.2 rest

/-- Well-formedness of a slice header against the store. -/
def SliceWF {α : Type} (st : Store α) (sl : GoSlice) : Prop :=
  sl.aid < st.arrays.length ∧ sl.len ≤ (readArr st sl.aid).length

theorem view_sliceAppend_other {α : Type} (st : Store α) (t : GoSlice) (x : α)
    (s : GoSlice) (hne : t.aid ≠ s.aid) (hlt : s.aid < st.arrays.length) :
    view (sliceAppend st t x).1 s = view st s := by
  unfold sliceAppend
  by_cases hcap : t.len < (readArr st t.aid).length
  · rw [if_pos hcap]
    unfold view readArr
    rw [List.getD_eq_getElem?_getD, List.getElem?_set_ne hne,
      ← List.getD_eq_getElem?_getD]
  · rw [if_neg hcap]
    unfold view readArr
    rw [List.getD_eq_getElem?_getD, List.getElem?_append_left hlt,
      ← List.getD_eq_getElem?_getD]

theorem sliceAppend_store_grows {α : Type} (st : Store α) (t : GoSlice) (x : α) :
    st.arrays.length ≤ (sliceAppend st t x).1.arrays.length := by
  unfold sliceAppend
  by_cases hcap : t.len < (readArr st t.aid).length
  · rw [if_pos hcap]
    simp
  · rw [if_neg hcap]
    simp

theorem sliceAppend_aid {α : Type} (st : Store α) (t : GoSlice) (x : α) :
    (sliceAppend st t x).2.aid = t.aid ∨
      (sliceAppend st t x).2.aid = st.arrays.length := by
  unfold sliceAppend
  by_cases hcap : t.len < (readArr st t.aid).length
  · rw [if_pos hcap]
    exact Or.inl rfl
  · rw [if_neg hcap]
    exact Or.inr rfl

theorem take_set_succ {α : Type} (l : List α) (i : Nat) (a : α) (h : i < l.length) :
    (l.set i a).take (i + 1) = l.take i ++ [a] := by
  induction l generalizing i with
  | nil => simp at h
  | cons b rest ih =>
    cases i with
    | zero => rfl
    | succ j =>
      simp only [List.set_cons_succ, List.take_succ_cons, List.cons_append]
      rw [ih j (by simpa using h)]

/-- Appending through a well-formed slice appends one visible cell and
preserves well-formedness. -/
theorem sliceAppend_self_view {α : Type} (st : Store α) (t : GoSlice) (x : α)
    (hwf : SliceWF st t) :
    view (sliceAppend st t x).1 (sliceAppend st t x).2 = view st t ++ [some x] ∧
      SliceWF (sliceAppend st t x).1 (sliceAppend st t x).2 := by
  obtain ⟨haid, hlen⟩ := hwf
  unfold sliceAppend
  by_cases hcap : t.len < (readArr st t.aid).length
  · rw [if_pos hcap]
    have hread : readArr
        (⟨st.arrays.set t.aid ((readArr st t.aid).set t.len (some x))⟩ : Store α)
        t.aid = (readArr st t.aid).set t.len (some x) := by
      unfold readArr
      rw [List.getD_eq_getElem?_getD, List.getElem?_set_self haid]
      rfl
    constructor
    · show ((readArr (⟨st.arrays.set t.aid ((readArr st t.aid).set t.len (some x))⟩ :
          Store α) t.aid).take (t.len + 1)) = view st t ++ [some x]
      rw [hread]
      exact take_set_succ _ _ _ hcap
    · refine ⟨by simpa using haid, ?_⟩
      show t.len + 1 ≤ (readArr _ t.aid).length
      rw [hread, List.length_set]
      omega
  · rw [if_neg hcap]
    have hlen_eq : t.len = (readArr st t.aid).length := le_antisymm hlen (not_lt.mp hcap)
    have hview_len : (view st t).length = t.len := by
      unfold view
      exact List.length_take_of_le hlen
    have hread : readArr (⟨st.arrays ++ [view st t ++ some x ::
        List.replicate (max 1 (2 * (readArr st t.aid).length) - t.len - 1) none]⟩ :
          Store α) st.arrays.length =
        view st t ++ some x ::
          List.replicate (max 1 (2 * (readArr st t.aid).length) - t.len - 1) none := by
      unfold readArr
      rw [List.getD_eq_getElem?_getD, List.getElem?_concat_length]
      rfl
    constructor
    · show (readArr _ st.arrays.length).take (t.len + 1) = view st t ++ [some x]
      rw [hread, ← hview_len]
      rw [List.take_append 1]
      rfl
    · refine ⟨by simp, ?_⟩
      show t.len + 1 ≤ (readArr _ st.arrays.length).length
      rw [hread]
      simp only [List.length_append, List.length_cons, hview_len]
      omega

theorem addAll_cons {α : Type} (st : Store α) (r : GoRouter) (x : α) (rest : List α) :
    addAll st r (x :: rest) =
      addAll (sliceAppend st r.handlers x).1 ⟨(sliceAppend st r.handlers x).2⟩ rest := rfl

/-- Appends through one router never change the cells visible through a
slice backed by a different array. -/
theorem addAll_view_other {α : Type} (xs : List α) :
    ∀ (st : Store α) (r : GoRouter) (s : GoSlice),
      r.handlers.aid ≠ s.aid → s.aid < st.arrays.length →
      view (addAll st r xs).1 s = view st s := by
  induction xs with
  | nil =>
    intro st r s _ _
    rfl
  | cons x rest ih =>
    intro st r s hne hlt
    rw [addAll_cons]
    have haid : (sliceAppend st r.handlers x).2.aid ≠ s.aid := by
      rcases sliceAppend_aid st r.handlers x with h | h
      · rw [h]
        exact hne
      · rw [h]
        omega
    have hlt2 : s.aid < (sliceAppend st r.handlers x).1.arrays.length :=
      lt_of_lt_of_le hlt (sliceAppend_store_grows st r.handlers x)
    rw [ih (sliceAppend st r.handlers x).1 ⟨(sliceAppend st r.handlers x).2⟩ s haid hlt2]
    exact view_sliceAppend_other st r.handlers x s hne hlt

/-- Appends through a well-formed router make exactly the appended elements
visible, in order. -/
theorem addAll_view_self {α : Type} (xs : List α) :
    ∀ (st : Store α) (r : GoRouter), SliceWF st r.handlers →
      view (addAll st r xs).1 (addAll st r xs).2.handlers =
          view st r.handlers ++ xs.map some ∧
        SliceWF (addAll st r xs).1 (addAll st r xs).2.handlers := by
  induction xs with
  | nil =>
    intro st r hwf
    refine ⟨?_, hwf⟩
    show view st r.handlers = view st r.handlers ++ ([] : List α).map some
    simp
  | cons x rest ih =>
    intro st r hwf
    rw [addAll_cons]
    obtain ⟨hv, hwf2⟩ := sliceAppend_self_view st r.handlers x hwf
    obtain ⟨hv2, hwf3⟩ := ih (sliceAppend st r.handlers x).1
      ⟨(sliceAppend st r.handlers x).2⟩ hwf2
    refine ⟨?_, hwf3⟩
    rw [hv2]
    show view (sliceAppend st r.handlers x).1 (sliceAppend st r.handlers x).2 ++
      rest.map some = view st r.handlers ++ (x :: rest).map some
    rw [hv]
    simp

theorem view_diverge_other {α : Type} (st : Store α) (r : GoRouter) (s : GoSlice)
    (hlt : s.aid < st.arrays.length) :
    view (routerDiverge st r).1 s = view st s := by
  show view (⟨st.arrays ++ [view st r.handlers]⟩ : Store α) s = view st s
  unfold view readArr
  rw [List.getD_eq_getElem?_getD, List.getElem?_append_left hlt,
    ← List.getD_eq_getElem?_getD]

theorem view_diverge_self {α : Type} (st : Store α) (r : GoRouter)
    (hwf : SliceWF st r.handlers) :
    view (routerDiverge st r).1 (routerDiverge st r).2.handlers =
        view st r.handlers ∧
      SliceWF (routerDiverge st r).1 (routerDiverge st r).2.handlers := by
  have hview_len : (view st r.handlers).length = r.handlers.len :=
    List.length_take_of_le hwf.2
  have hread : readArr (⟨st.arrays ++ [view st r.handlers]⟩ : Store α)
      st.arrays.length = view st r.handlers := by
    unfold readArr
    rw [List.getD_eq_getElem?_getD, List.getElem?_concat_length]
    rfl
  constructor
  · show (readArr (⟨st.arrays ++ [view st r.handlers]⟩ : Store α)
        st.arrays.length).take r.handlers.len = view st r.handlers
    rw [hread, ← hview_len, List.take_length]
  · constructor
    · show st.arrays.length < (st.arrays ++ [view st r.handlers]).length
      simp
    · show r.handlers.len ≤
        (readArr (⟨st.arrays ++ [view st r.handlers]⟩ : Store α)
          st.arrays.length).length
      rw [hread, hview_len]

/-- C3: `Diverge` takes an eager copy of the handler sequence.  After
`d := r.Diverge()`: the visible handlers of `r` and of `d` both equal the
original sequence; appending any handlers `xs` to `d` leaves `r`'s visible
handlers (and hence the behavior of `r`'s composed handler) unchanged while
`d` sees exactly the appended handlers; and appending any handlers `ys` to
`r` leaves `d`'s visible handlers unchanged. -/
theorem router_C3 (Ctx C W Req E : Type) (st : Store (Hdl Ctx C W Req E))
    (r : GoRouter) (hwf : SliceWF st r.handlers) :
    view (routerDiverge st r).1 r.handlers = view st r.handlers ∧
    view (routerDiverge st r).1 (routerDiverge st r).2.handlers =
      view st r.handlers ∧
    (∀ xs : List (Hdl Ctx C W Req E),
      view (addAll (routerDiverge st r).1 (routerDiverge st r).2 xs).1 r.handlers =
          view st r.handlers ∧
        view (addAll (routerDiverge st r).1 (routerDiverge st r).2 xs).1
            (addAll (routerDiverge st r).1 (routerDiverge st r).2 xs).2.handlers =
          view st r.handlers ++ xs.map some ∧
        ∀ (finalHandler : Hdl Ctx C W Req E),
          routerRun (view (addAll (routerDiverge st r).1 (routerDiverge st r).2
              xs).1 r.handlers).reduceOption finalHandler =
            routerRun (view st r.handlers).reduceOption finalHandler) ∧
    (∀ ys : List (Hdl Ctx C W Req E),
      view (addAll (routerDiverge st r).1 r ys).1
          (routerDiverge st r).2.handlers =
        view st r.handlers) := by
  obtain ⟨hdv, hdwf⟩ := view_diverge_self st r hwf
  have hdaid : (routerDiverge st r).2.handlers.aid = st.arrays.length := rfl
  have hrlt : r.handlers.aid < (routerDiverge st r).1.arrays.length := by
    have h1 := hwf.1
    show r.handlers.aid < (st.arrays ++ [view st r.handlers]).length
    simp only [List.length_append, List.length_cons, List.length_nil]
    omega
  refine ⟨view_diverge_other st r r.handlers hwf.1, hdv, ?_, ?_⟩
  · intro xs
    have hother : view (addAll (routerDiverge st r).1 (routerDiverge st r).2 xs).1
        r.handlers = view st r.handlers := by
      rw [addAll_view_other xs (routerDiverge st r).1 (routerDiverge st r).2
        r.handlers (by rw [hdaid]; have h1 := hwf.1; omega) hrlt]
      exact view_diverge_other st r r.handlers hwf.1
    refine ⟨hother, ?_, ?_⟩
    · obtain ⟨hv, _⟩ := addAll_view_self xs (routerDiverge st r).1
        (routerDiverge st r).2 hdwf
      rw [hv, hdv]
    · intro finalHandler
      rw [hother]
  · intro ys
    have hdlt : (routerDiverge st r).2.handlers.aid <
        (routerDiverge st r).1.arrays.length := by
      rw [hdaid]
      show st.arrays.length < (st.arrays ++ [view st r.handlers]).length
      simp
    rw [addAll_view_other ys (routerDiverge st r).1 r
      (routerDiverge st r).2.handlers (by rw [hdaid]; have h1 := hwf.1; omega) hdlt]
    exact hdv

/-- Witness for C3: a store holding one handler; appending to the diverged
router leaves the original's visible handlers unchanged, and appending to
the original leaves the diverged copy's visible handlers unchanged. -/
theorem router_C3_witness :
    view (addAll (routerDiverge (⟨[[some (tagHdl 1)]]⟩ :
        Store (Hdl Unit Unit (List Nat) Unit Nat)) ⟨⟨0, 1⟩⟩).1
        (routerDiverge (⟨[[some (tagHdl 1)]]⟩ :
          Store (Hdl Unit Unit (List Nat) Unit Nat)) ⟨⟨0, 1⟩⟩).2 [tagHdl 2]).1
      (⟨0, 1⟩ : GoSlice) = [some (tagHdl 1)] ∧
    view (addAll (routerDiverge (⟨[[some (tagHdl 1)]]⟩ :
        Store (Hdl Unit Unit (List Nat) Unit Nat)) ⟨⟨0, 1⟩⟩).1 ⟨⟨0, 1⟩⟩ [tagHdl 3]).1
      (routerDiverge (⟨[[some (tagHdl 1)]]⟩ :
        Store (Hdl Unit Unit (List Nat) Unit Nat)) ⟨⟨0, 1⟩⟩).2.handlers =
      [some (tagHdl 1)] := by
  constructor
  · exact ((router_C3 Unit Unit (List Nat) Unit Nat ⟨[[some (tagHdl 1)]]⟩ ⟨⟨0, 1⟩⟩
      ⟨by simp, by simp [readArr]⟩).2.2.1 [tagHdl 2]).1.trans rfl
  · exact ((router_C3 Unit Unit (List Nat) Unit Nat ⟨[[some (tagHdl 1)]]⟩ ⟨⟨0, 1⟩⟩
      ⟨by simp, by simp [readArr]⟩).2.2.2 [tagHdl 3]).trans rfl

/-! ## internal/logging_writer.go

The underlying `http.ResponseWriter` is abstract: a state type `U` with the
interface operations.  Go discovers the optional `http.Hijacker` capability
with a type assertion; here it is an optional operation. -/

/-- The underlying response writer capability set.
`write` returns the `(n, err)` pair of Go `Write`. -/
structure RW (U β E HV HR : Type) where
  header : U → HV
  write : U → List β → U × Int × Option E
  writeHeader : U → Int → U
  hijack : Option (U → HR)

/-- `internal.LoggingWriter` (adhoc/logger.go declares an identical
`loggingWriter` struct): underlying writer plus recorded status and size. -/
structure LoggingWriter (U : Type) where
  underlying : U
  StatusCode : Int
  Size : Nat

/-- `internal.NewLoggingWriter`: the recorded fields start at their Go zero
values. -/
def NewLoggingWriter {U : Type} (underlying : U) : LoggingWriter U :=
  ⟨underlying, 0, 0⟩

/-- The result of a Go `Hijack` call: either a panic (programming error) or
the underlying hijacker's result. -/
inductive HijackOutcome (HR : Type)
  | misuseAbort (msg : String)
  | ok (r : HR)

namespace LoggingWriter

/-- `Header() http.Header { return w.underlying.Header() }`. -/
def Header {U β E HV HR : Type} (rw : RW U β E HV HR) (w : LoggingWriter U) : HV :=
  rw.header w.underlying

/-- `Write(b)`: `w.Size += len(b); return w.underlying.Write(b)`. -/
def Write {U β E HV HR : Type} (rw : RW U β E HV HR) (w : LoggingWriter U)
    (b : List β) : LoggingWriter U × Int × Option E :=
  (⟨(rw.write w.underlying b).1, w.StatusCode, w.Size + b.length⟩,
   (rw.write w.underlying b).2)

/-- `WriteHeader(code)`: `w.StatusCode = code;
w.underlying.WriteHeader(code)`. -/
def WriteHeader {U β E HV HR : Type} (rw : RW U β E HV HR) (w : LoggingWriter U)
    (code : Int) : LoggingWriter U :=
  ⟨rw.writeHeader w.underlying code, code, w.Size⟩

/-- `Hijack()`: type-assert the underlying writer to `http.Hijacker`; panic
if it does not implement it, otherwise delegate. -/
def Hijack {U β E HV HR : Type} (rw : RW U β E HV HR) (w : LoggingWriter U) :
    HijackOutcome HR :=
  match rw.hijack with
  | none => HijackOutcome.misuseAbort "response writer does not implement Hijacker"
  | some f => HijackOutcome.ok (f w.underlying)

end LoggingWriter

/-- A sequence of body writes. -/
def writeAll {U β E HV HR : Type} (rw : RW U β E HV HR) :
    LoggingWriter U → List (List β) → LoggingWriter U
  | w, [] => w
  | w, b :: rest => writeAll rw (LoggingWriter.Write rw w b).1 rest

/-- C8: every method delegates to the underlying writer (header value,
write results, status propagation); the recorded size after any sequence of
writes is the cumulative sum of the chunk lengths (writes do not touch the
recorded status); the recorded status is the value of the last
`WriteHeader` call; in particular two writes of length 3 record size 6 and
a single `WriteHeader 200` records status 200. -/
theorem loggingWriter_C8 (U β E HV HR : Type) (rw : RW U β E HV HR) :
    (∀ w : LoggingWriter U, LoggingWriter.Header rw w = rw.header w.underlying) ∧
    (∀ (w : LoggingWriter U) (b : List β),
      (LoggingWriter.Write rw w b).1.underlying = (rw.write w.underlying b).1 ∧
      (LoggingWriter.Write rw w b).2 = (rw.write w.underlying b).2) ∧
    (∀ (w : LoggingWriter U) (c : Int),
      (LoggingWriter.WriteHeader rw w c).underlying = rw.writeHeader w.underlying c ∧
      (LoggingWriter.WriteHeader rw w c).StatusCode = c) ∧
    (∀ (w : LoggingWriter U) (chunks : List (List β)),
      (writeAll rw w chunks).Size = w.Size + (chunks.map List.length).sum ∧
      (writeAll rw w chunks).StatusCode = w.StatusCode) ∧
    (∀ (u : U) (x : β),
      (writeAll rw (NewLoggingWriter u)
        [List.replicate 3 x, List.replicate 3 x]).Size = 6) ∧
    (∀ u : U,
      (LoggingWriter.WriteHeader rw (NewLoggingWriter u) 200).StatusCode = 200) := by
  have hacc : ∀ (chunks : List (List β)) (w : LoggingWriter U),
      (writeAll rw w chunks).Size = w.Size + (chunks.map List.length).sum ∧
      (writeAll rw w chunks).StatusCode = w.StatusCode := by
    intro chunks
    induction chunks with
    | nil =>
      intro w
      exact ⟨by simp [writeAll], rfl⟩
    | cons b rest ih =>
      intro w
      obtain ⟨hs, hc⟩ := ih (LoggingWriter.Write rw w b).1
      constructor
      · show (writeAll rw (LoggingWriter.Write rw w b).1 rest).Size = _
        rw [hs]
        show w.Size + b.length + (rest.map List.length).sum = _
        simp [Nat.add_assoc]
      · exact hc
  refine ⟨fun w => rfl, fun w b => ⟨rfl, rfl⟩, fun w c => ⟨rfl, rfl⟩,
    fun w chunks => hacc chunks w, fun u x => ?_, fun u => rfl⟩
  rw [(hacc [List.replicate 3 x, List.replicate 3 x] (NewLoggingWriter u)).1]
  simp [NewLoggingWriter]

/-- C9: hijacking through the logging writer panics when the underlying
writer does not implement `http.Hijacker` and delegates to it when it
does. -/
theorem loggingWriter_C9 (U β E HV HR : Type) :
    (∀ (rw : RW U β E HV HR) (w : LoggingWriter U), rw.hijack = none →
      LoggingWriter.Hijack rw w = HijackOutcome.misuseAbort
        "response writer does not implement Hijacker") ∧
    (∀ (rw : RW U β E HV HR) (w : LoggingWriter U) (f : U → HR),
      rw.hijack = some f →
      LoggingWriter.Hijack rw w = HijackOutcome.ok (f w.underlying)) := by
  constructor
  · intro rw w hnone
    unfold LoggingWriter.Hijack
    rw [hnone]
  · intro rw w f hsome
    unfold LoggingWriter.Hijack
    rw [hsome]

/-- A trivial underlying writer with no hijack capability. -/
def unitRW : RW Unit Unit Unit Unit Nat :=
  ⟨fun _ => (), fun u b => (u, (b.length : Int), none), fun u _ => u, none⟩

/-- A trivial underlying writer supporting hijack. -/
def hijackRW : RW Unit Unit Unit Unit Nat :=
  ⟨fun _ => (), fun u b => (u, (b.length : Int), none), fun u _ => u,
   some (fun _ => 42)⟩

/-- Witness for C9: both the panicking and the delegating branch at a
concrete writer. -/
theorem loggingWriter_C9_witness :
    LoggingWriter.Hijack unitRW (NewLoggingWriter ()) =
      HijackOutcome.misuseAbort "response writer does not implement Hijacker" ∧
    LoggingWriter.Hijack hijackRW (NewLoggingWriter ()) = HijackOutcome.ok 42 :=
  ⟨(loggingWriter_C9 Unit Unit Unit Unit Nat).1 unitRW (NewLoggingWriter ()) rfl,
   (loggingWriter_C9 Unit Unit Unit Unit Nat).2 hijackRW (NewLoggingWriter ())
     (fun _ => 42) rfl⟩

/-! ## Logging middlewares (adhoc/logger.go, bun/logger.go, v5 logger)

The middleware wraps the response writer in a logging writer, runs the next
handler (modelled by the sequence of writer operations it performs), and
then emits at most one log record according to the recorded status code.
`zapcore.Level` is an enumeration; a record is its severity plus the logged
status code and response size. -/

/-- The zap severity levels. -/
inductive ZapLevel
  | debug
  | info
  | warn
  | error
  | dpanicLvl
  | panicLvl
  | fatal
deriving DecidableEq

/-- One emitted log record: severity, logged status code and response
size. -/
structure Emit where
  level : ZapLevel
  statusCode : Int
  responseSize : Nat
deriving DecidableEq

/-- An observable operation the next handler performs on the response
writer. -/
inductive WOp (β : Type)
  | write (b : List β)
  | writeHeader (code : Int)

/-- Apply one writer operation to the logging writer. -/
def applyWOp {U β E HV HR : Type} (rw : RW U β E HV HR) (w : LoggingWriter U) :
    WOp β → LoggingWriter U
  | WOp.write b => (LoggingWriter.Write rw w b).1
  | WOp.writeHeader c => LoggingWriter.WriteHeader rw w c

/-- Run the next handler's writer operations in order. -/
def runOps {U β E HV HR : Type} (rw : RW U β E HV HR) :
    LoggingWriter U → List (WOp β) → LoggingWriter U
  | w, [] => w
  | w, op :: rest => runOps rw (applyWOp rw w op) rest

/-- Options of the adhoc and bun logging middlewares: success level and
`LogOnlyErrors`. -/
structure AdhocLoggingOptions where
  level : ZapLevel
  onlyErrors : Bool

/-- The `switch` of adhoc/logger.go `NewLoggingMiddleware`, emitting the
records produced for the recorded outcome `lw`. -/
def adhocSwitch (opts : AdhocLoggingOptions) {U : Type} (lw : LoggingWriter U) :
    List Emit :=
  if opts.onlyErrors ∧ lw.StatusCode < 400 then
    -- No logging for non-errors
    []
  else if ¬opts.onlyErrors ∧ lw.StatusCode < 400 then
    -- Log using the provided level for non-errors
    [⟨opts.level, lw.StatusCode, lw.Size⟩]
  else if 400 ≤ lw.StatusCode ∧ lw.StatusCode < 500 then
    -- Log using the WARN level for 4xx errors
    [⟨ZapLevel.warn, lw.StatusCode, lw.Size⟩]
  else if 500 < lw.StatusCode then
    -- Log using the ERROR level for 5xx errors and up
    [⟨ZapLevel.error, lw.StatusCode, lw.Size⟩]
  else
    []

/-- One request through the adhoc logging middleware: wrap the writer, run
the next handler, classify. -/
def adhocLoggingEmits {U β E HV HR : Type} (opts : AdhocLoggingOptions)
    (rw : RW U β E HV HR) (u : U) (nextOps : List (WOp β)) : List Emit :=
  adhocSwitch opts (runOps rw (NewLoggingWriter u) nextOps)

/-- The `switch` of bun/logger.go `NewLoggingMiddleware`: the same four
cases (the bun handler additionally returns nil in every branch). -/
def bunSwitch (opts : AdhocLoggingOptions) {U : Type} (lw : LoggingWriter U) :
    List Emit :=
  if opts.onlyErrors ∧ lw.StatusCode < 400 then []
  else if ¬opts.onlyErrors ∧ lw.StatusCode < 400 then
    [⟨opts.level, lw.StatusCode, lw.Size⟩]
  else if 400 ≤ lw.StatusCode ∧ lw.StatusCode < 500 then
    [⟨ZapLevel.warn, lw.StatusCode, lw.Size⟩]
  else if 500 < lw.StatusCode then
    [⟨ZapLevel.error, lw.StatusCode, lw.Size⟩]
  else
    []

/-- One request through the bun logging middleware. -/
def bunLoggingEmits {U β E HV HR : Type} (opts : AdhocLoggingOptions)
    (rw : RW U β E HV HR) (u : U) (nextOps : List (WOp β)) : List Emit :=
  bunSwitch opts (runOps rw (NewLoggingWriter u) nextOps)

/-- Options of the v5 logging middleware (part_008): success level and the
optional `LogCheck` predicate. -/
structure V5LoggingOptions (Req : Type) where
  level : ZapLevel
  logCheckFn : Option (Req → Bool)

/-- The `switch` of the v5 `NewLoggingMiddleware`: for a non-error status
the `LogCheck` predicate may suppress the record; 4xx logs at WARN; the
last case is `lw.StatusCode > 500`. -/
def v5Switch {Req U : Type} (opts : V5LoggingOptions Req) (r : Req)
    (lw : LoggingWriter U) : List Emit :=
  if lw.StatusCode < 400 then
    match opts.logCheckFn with
    | some f => if f r then [⟨opts.level, lw.StatusCode, lw.Size⟩] else []
    | none => [⟨opts.level, lw.StatusCode, lw.Size⟩]
  else if 400 ≤ lw.StatusCode ∧ lw.StatusCode < 500 then
    [⟨ZapLevel.warn, lw.StatusCode, lw.Size⟩]
  else if 500 < lw.StatusCode then
    [⟨ZapLevel.error, lw.StatusCode, lw.Size⟩]
  else
    []

/-- One request through the v5 logging middleware. -/
def v5LoggingEmits {Req U β E HV HR : Type} (opts : V5LoggingOptions Req)
    (rw : RW U β E HV HR) (u : U) (r : Req) (nextOps : List (WOp β)) : List Emit :=
  v5Switch opts r (runOps rw (NewLoggingWriter u) nextOps)

/-! ### Classification lemmas shared by the logging claims -/

theorem adhocSwitch_success (opts : AdhocLoggingOptions) {U : Type}
    (lw : LoggingWriter U) (hlt : lw.StatusCode < 400) :
    adhocSwitch opts lw =
      if opts.onlyErrors then [] else [⟨opts.level, lw.StatusCode, lw.Size⟩] := by
  unfold adhocSwitch
  by_cases ho : opts.onlyErrors
  · rw [if_pos ⟨ho, hlt⟩, if_pos ho]
  · rw [if_neg (fun h => ho h.1), if_pos ⟨ho, hlt⟩, if_neg ho]

theorem adhocSwitch_warn (opts : AdhocLoggingOptions) {U : Type}
    (lw : LoggingWriter U) (h4 : 400 ≤ lw.StatusCode) (h5 : lw.StatusCode < 500) :
    adhocSwitch opts lw = [⟨ZapLevel.warn, lw.StatusCode, lw.Size⟩] := by
  unfold adhocSwitch
  rw [if_neg (fun h => absurd h.2 (by omega)),
    if_neg (fun h => absurd h.2 (by omega)), if_pos ⟨h4, h5⟩]

/-- bun/logger.go performs the identical classification. -/
theorem bunSwitch_eq (opts : AdhocLoggingOptions) {U : Type}
    (lw : LoggingWriter U) : bunSwitch opts lw = adhocSwitch opts lw := rfl

theorem v5Switch_warn {Req U : Type} (opts : V5LoggingOptions Req) (r : Req)
    (lw : LoggingWriter U) (h4 : 400 ≤ lw.StatusCode) (h5 : lw.StatusCode < 500) :
    v5Switch opts r lw = [⟨ZapLevel.warn, lw.StatusCode, lw.Size⟩] := by
  unfold v5Switch
  rw [if_neg (by omega), if_pos ⟨h4, h5⟩]

theorem v5Switch_success_none {Req U : Type} (opts : V5LoggingOptions Req)
    (r : Req) (lw : LoggingWriter U) (hlt : lw.StatusCode < 400)
    (hchk : opts.logCheckFn = none) :
    v5Switch opts r lw = [⟨opts.level, lw.StatusCode, lw.Size⟩] := by
  unfold v5Switch
  rw [if_pos hlt, hchk]

theorem v5Switch_success_some {Req U : Type} (opts : V5LoggingOptions Req)
    (r : Req) (lw : LoggingWriter U) (f : Req → Bool)
    (hlt : lw.StatusCode < 400) (hchk : opts.logCheckFn = some f) :
    v5Switch opts r lw =
      if f r then [⟨opts.level, lw.StatusCode, lw.Size⟩] else [] := by
  unfold v5Switch
  rw [if_pos hlt, hchk]

/-- The recorded status stays at its initial value when no `WriteHeader`
call occurs. -/
def hasWriteHeader {β : Type} : WOp β → Bool
  | WOp.writeHeader _ => true
  | WOp.write _ => false

theorem runOps_statusCode_no_writeHeader {U β E HV HR : Type}
    (rw : RW U β E HV HR) :
    ∀ (nextOps : List (WOp β)) (w : LoggingWriter U),
      nextOps.all (fun op => !hasWriteHeader op) = true →
      (runOps rw w nextOps).StatusCode = w.StatusCode := by
  intro nextOps
  induction nextOps with
  | nil =>
    intro w _
    rfl
  | cons op rest ih =>
    intro w hall
    simp only [List.all_cons, Bool.and_eq_true] at hall
    show (runOps rw (applyWOp rw w op) rest).StatusCode = w.StatusCode
    rw [ih _ hall.2]
    cases op with
    | write b => rfl
    | writeHeader c => exact absurd hall.1 (by simp [hasWriteHeader])

/-! ### Claim theorems about the logging middlewares -/

/-- C1 fails on the code: at a recorded status of exactly 500 the adhoc and
bun middlewares emit no record at all (their last case requires
`statusCode > 500`, contradicting the code's own comment that 5xx and up
log at ERROR), whereas at 501 exactly one ERROR record is emitted. -/
theorem logging_C1_bug :
    adhocLoggingEmits ⟨ZapLevel.info, true⟩ unitRW () [WOp.writeHeader 500] = [] ∧
    adhocLoggingEmits ⟨ZapLevel.info, false⟩ unitRW () [WOp.writeHeader 500] = [] ∧
    bunLoggingEmits ⟨ZapLevel.info, true⟩ unitRW () [WOp.writeHeader 500] = [] ∧
    v5LoggingEmits (⟨ZapLevel.info, none⟩ : V5LoggingOptions Unit) unitRW ()
      () [WOp.writeHeader 500] = [] ∧
    adhocLoggingEmits ⟨ZapLevel.info, true⟩ unitRW () [WOp.writeHeader 501] =
      [⟨ZapLevel.error, 501, 0⟩] := by
  decide

/-- C5: a recorded status in 400..499 emits exactly one WARN record, for
any `only_log_errors` setting (adhoc) and any `log_check` predicate (v5,
which does not consult it for errors). -/
theorem logging_C5 {U β E HV HR Req : Type} (rw : RW U β E HV HR) (u : U)
    (opts : AdhocLoggingOptions) (vopts : V5LoggingOptions Req) (r : Req)
    (nextOps : List (WOp β))
    (h4 : 400 ≤ (runOps rw (NewLoggingWriter u) nextOps).StatusCode)
    (h5 : (runOps rw (NewLoggingWriter u) nextOps).StatusCode < 500) :
    adhocLoggingEmits opts rw u nextOps =
      [⟨ZapLevel.warn, (runOps rw (NewLoggingWriter u) nextOps).StatusCode,
        (runOps rw (NewLoggingWriter u) nextOps).Size⟩] ∧
    bunLoggingEmits opts rw u nextOps =
      [⟨ZapLevel.warn, (runOps rw (NewLoggingWriter u) nextOps).StatusCode,
        (runOps rw (NewLoggingWriter u) nextOps).Size⟩] ∧
    v5LoggingEmits vopts rw u r nextOps =
      [⟨ZapLevel.warn, (runOps rw (NewLoggingWriter u) nextOps).StatusCode,
        (runOps rw (NewLoggingWriter u) nextOps).Size⟩] := by
  refine ⟨?_, ?_, ?_⟩
  · exact adhocSwitch_warn opts _ h4 h5
  · exact (bunSwitch_eq opts _).trans (adhocSwitch_warn opts _ h4 h5)
  · exact v5Switch_warn vopts r _ h4 h5

/-- Witness for C5: status 404 under `only_log_errors = true` and under a
`log_check` predicate that answers false still yields one WARN record. -/
theorem logging_C5_witness :
    adhocLoggingEmits ⟨ZapLevel.info, true⟩ unitRW () [WOp.writeHeader 404] =
      [⟨ZapLevel.warn, 404, 0⟩] ∧
    v5LoggingEmits (⟨ZapLevel.info, some (fun _ => false)⟩ :
      V5LoggingOptions Unit) unitRW () () [WOp.writeHeader 404] =
      [⟨ZapLevel.warn, 404, 0⟩] := by
  have h := logging_C5 unitRW () ⟨ZapLevel.info, true⟩
    ⟨ZapLevel.info, some (fun _ => false)⟩ () [WOp.writeHeader 404]
    (by decide) (by decide)
  exact ⟨h.1.trans rfl, h.2.2.trans rfl⟩

/-- C6: for a recorded status below 400, the adhoc middleware suppresses
the record when `only_log_errors` is set and otherwise emits exactly one
record at the configured success level; the v5 middleware suppresses the
record when a configured `log_check` answers false and otherwise emits
exactly one record at the configured success level. -/
theorem logging_C6 {U β E HV HR Req : Type} (rw : RW U β E HV HR) (u : U)
    (lvl : ZapLevel) (f : Req → Bool) (r : Req) (nextOps : List (WOp β))
    (hlt : (runOps rw (NewLoggingWriter u) nextOps).StatusCode < 400) :
    adhocLoggingEmits ⟨lvl, true⟩ rw u nextOps = [] ∧
    adhocLoggingEmits ⟨lvl, false⟩ rw u nextOps =
      [⟨lvl, (runOps rw (NewLoggingWriter u) nextOps).StatusCode,
        (runOps rw (NewLoggingWriter u) nextOps).Size⟩] ∧
    (f r = false → v5LoggingEmits ⟨lvl, some f⟩ rw u r nextOps = []) ∧
    (f r = true → v5LoggingEmits ⟨lvl, some f⟩ rw u r nextOps =
      [⟨lvl, (runOps rw (NewLoggingWriter u) nextOps).StatusCode,
        (runOps rw (NewLoggingWriter u) nextOps).Size⟩]) ∧
    v5LoggingEmits ⟨lvl, none⟩ rw u r nextOps =
      [⟨lvl, (runOps rw (NewLoggingWriter u) nextOps).StatusCode,
        (runOps rw (NewLoggingWriter u) nextOps).Size⟩] := by
  refine ⟨?_, ?_, ?_, ?_, ?_⟩
  · exact (adhocSwitch_success ⟨lvl, true⟩ _ hlt).trans (if_pos rfl)
  · exact (adhocSwitch_success ⟨lvl, false⟩ _ hlt).trans (if_neg (by simp))
  · intro hf
    exact (v5Switch_success_some ⟨lvl, some f⟩ r _ f hlt rfl).trans
      (by rw [hf]; exact if_neg (by simp))
  · intro hf
    exact (v5Switch_success_some ⟨lvl, some f⟩ r _ f hlt rfl).trans
      (by rw [hf]; exact if_pos rfl)
  · exact v5Switch_success_none ⟨lvl, none⟩ r _ hlt rfl

/-- Witness for C6: status 0 (below 400) with each suppression setting. -/
theorem logging_C6_witness :
    adhocLoggingEmits ⟨ZapLevel.info, true⟩ unitRW () ([] : List (WOp Unit)) = [] ∧
    adhocLoggingEmits ⟨ZapLevel.info, false⟩ unitRW () ([] : List (WOp Unit)) =
      [⟨ZapLevel.info, 0, 0⟩] ∧
    v5LoggingEmits (⟨ZapLevel.info, some (fun _ => false)⟩ :
      V5LoggingOptions Unit) unitRW () () ([] : List (WOp Unit)) = [] ∧
    v5LoggingEmits (⟨ZapLevel.info, some (fun _ => true)⟩ :
      V5LoggingOptions Unit) unitRW () () ([] : List (WOp Unit)) =
      [⟨ZapLevel.info, 0, 0⟩] ∧
    v5LoggingEmits (⟨ZapLevel.info, none⟩ : V5LoggingOptions Unit) unitRW ()
      () ([] : List (WOp Unit)) = [⟨ZapLevel.info, 0, 0⟩] := by
  have h1 := logging_C6 unitRW () ZapLevel.info (fun _ => false) ()
    ([] : List (WOp Unit)) (by decide)
  have h2 := logging_C6 unitRW () ZapLevel.info (fun _ => true) ()
    ([] : List (WOp Unit)) (by decide)
  exact ⟨h1.1, h1.2.1.trans rfl, h1.2.2.1 rfl,
    (h2.2.2.2.1 rfl).trans rfl, h1.2.2.2.2.trans rfl⟩

/-- C10: when the next handler never calls `WriteHeader`, the recorded
status stays 0, so the request is classified as a success: it is logged at
the configured success level, suppressed entirely under `only_log_errors`
or under a `log_check` answering false, and never logged as WARN or
ERROR. -/
theorem logging_C10 {U β E HV HR Req : Type} (rw : RW U β E HV HR) (u : U)
    (lvl : ZapLevel) (f : Req → Bool) (r : Req) (nextOps : List (WOp β))
    (hno : nextOps.all (fun op => !hasWriteHeader op) = true) :
    (runOps rw (NewLoggingWriter u) nextOps).StatusCode = 0 ∧
    adhocLoggingEmits ⟨lvl, true⟩ rw u nextOps = [] ∧
    adhocLoggingEmits ⟨lvl, false⟩ rw u nextOps =
      [⟨lvl, 0, (runOps rw (NewLoggingWriter u) nextOps).Size⟩] ∧
    (f r = false → v5LoggingEmits ⟨lvl, some f⟩ rw u r nextOps = []) ∧
    (f r = true → v5LoggingEmits ⟨lvl, some f⟩ rw u r nextOps =
      [⟨lvl, 0, (runOps rw (NewLoggingWriter u) nextOps).Size⟩]) ∧
    v5LoggingEmits ⟨lvl, none⟩ rw u r nextOps =
      [⟨lvl, 0, (runOps rw (NewLoggingWriter u) nextOps).Size⟩] := by
  have h0 : (runOps rw (NewLoggingWriter u) nextOps).StatusCode = 0 :=
    runOps_statusCode_no_writeHeader rw nextOps (NewLoggingWriter u) hno
  have hlt : (runOps rw (NewLoggingWriter u) nextOps).StatusCode < 400 := by
    rw [h0]
    decide
  refine ⟨h0, ?_, ?_, ?_, ?_, ?_⟩
  · exact (adhocSwitch_success ⟨lvl, true⟩ _ hlt).trans (if_pos rfl)
  · exact ((adhocSwitch_success ⟨lvl, false⟩ _ hlt).trans (if_neg (by simp))).trans
      (by rw [h0])
  · intro hf
    exact (v5Switch_success_some ⟨lvl, some f⟩ r _ f hlt rfl).trans
      (by rw [hf]; exact if_neg (by simp))
  · intro hf
    refine (v5Switch_success_some ⟨lvl, some f⟩ r _ f hlt rfl).trans ?_
    rw [hf, h0]
    simp
  · exact (v5Switch_success_none ⟨lvl, none⟩ r _ hlt rfl).trans (by rw [h0])

/-- Witness for C10: a next handler that only writes a 3-byte body. -/
theorem logging_C10_witness :
    (runOps unitRW (NewLoggingWriter ()) [WOp.write [(), (), ()]]).StatusCode
      = 0 ∧
    adhocLoggingEmits ⟨ZapLevel.info, true⟩ unitRW ()
      [WOp.write [(), (), ()]] = [] ∧
    adhocLoggingEmits ⟨ZapLevel.info, false⟩ unitRW ()
      [WOp.write [(), (), ()]] = [⟨ZapLevel.info, 0, 3⟩] := by
  have h := logging_C10 unitRW () ZapLevel.info (fun _ => false) ()
    [WOp.write [(), (), ()]] (by decide)
  exact ⟨h.1, h.2.1, h.2.2.1.trans rfl⟩

end Hutil

section ShiftPathExamples

example : Hutil.ShiftPath "/copy" = ("copy", "/") := by decide
example : Hutil.ShiftPath "/" = ("", "/") := by decide
example : Hutil.ShiftPath "/api/v1/hello" = ("api", "/v1/hello") := by decide
example : Hutil.ShiftPath "." = ("", "/") := by decide
example : Hutil.ShiftPath "/a/b/../c/" = ("a", "/c") := by decide

end ShiftPathExamples
